import Mathlib

/-!
Verification of the HPCG problem generator (`GenerateProblem.cpp`) and
residual reduction (`ComputeResidual.cpp`).

The C++ code is embedded shallowly:
* machine integers (`int`, `local_int_t`, `global_int_t`) become `Int`
  (loop counters that are provably nonnegative become `Nat`);
* `double` values become `ℚ` — the generator and the residual reducer only
  produce and compare values for which the claims are about exact equality
  of the written constants (27.0, −1.0, 0.0, 1.0 and differences thereof);
* the triply nested generation loop becomes the list `localPoints` of local
  coordinates in loop order; `localRow_getElem` proves that the loop's
  `currentLocalRow` equals the iteration position, so the per-row output
  arrays are maps over `localPoints`;
* `std::map` (`globalToLocalMap`) becomes a function `Int → Option Int`
  built by a left fold of pointwise updates in insertion order, which models
  the overwrite semantics of `operator[]`;
* the `assert` calls become the guard of `generateProblemChecked`;
* single-process (`HPCG_NOMPI`) and single-thread (`HPCG_NOOPENMP`)
  branches are the ones embedded, as the claims address those.
-/

namespace HPCG

/-- The geometry descriptor consumed by `GenerateProblem` (fields of `Geometry`
used by the code under verification): local subdomain extents `nx, ny, nz`,
process grid extents `npx, npy, npz`, this process's coordinate
`ipx, ipy, ipz`, and the total process count `size`. -/
structure Geometry where
  nx : Int
  ny : Int
  nz : Int
  npx : Int
  npy : Int
  npz : Int
  ipx : Int
  ipy : Int
  ipz : Int
  size : Int

/-- `int gnx = nx*npx;` -/
def Geometry.gnx (g : Geometry) : Int := g.nx * g.npx

/-- `int gny = ny*npy;` -/
def Geometry.gny (g : Geometry) : Int := g.ny * g.npy

/-- `int gnz = nz*npz;` -/
def Geometry.gnz (g : Geometry) : Int := g.nz * g.npz

/-- A well-formed geometry: positive extents, the process coordinate inside
the process grid, and a positive process count. -/
def Geometry.valid (g : Geometry) : Prop :=
  0 < g.nx ∧ 0 < g.ny ∧ 0 < g.nz ∧ 0 < g.npx ∧ 0 < g.npy ∧ 0 < g.npz ∧
  0 ≤ g.ipx ∧ g.ipx < g.npx ∧ 0 ≤ g.ipy ∧ g.ipy < g.npy ∧
  0 ≤ g.ipz ∧ g.ipz < g.npz ∧ 0 < g.size

instance (g : Geometry) : Decidable g.valid := by
  unfold Geometry.valid; infer_instance

/-- The local grid points `(ix, iy, iz)` in the order the triple loop of
`GenerateProblem` visits them (`iz` outermost, `ix` innermost). -/
def localPoints (g : Geometry) : List (Nat × Nat × Nat) :=
  (List.range g.nz.toNat).flatMap fun iz =>
    (List.range g.ny.toNat).flatMap fun iy =>
      (List.range g.nx.toNat).map fun ix => (ix, iy, iz)

/-- `local_int_t currentLocalRow = iz*nx*ny+iy*nx+ix;` -/
def localRow (g : Geometry) (p : Nat × Nat × Nat) : Nat :=
  p.2.2 * g.nx.toNat * g.ny.toNat + p.2.1 * g.nx.toNat + p.1

/-- `global_int_t gix = ipx*nx+ix;` -/
def gixP (g : Geometry) (p : Nat × Nat × Nat) : Int := g.ipx * g.nx + (p.1 : Int)

/-- `global_int_t giy = ipy*ny+iy;` -/
def giyP (g : Geometry) (p : Nat × Nat × Nat) : Int := g.ipy * g.ny + (p.2.1 : Int)

/-- `global_int_t giz = ipz*nz+iz;` -/
def gizP (g : Geometry) (p : Nat × Nat × Nat) : Int := g.ipz * g.nz + (p.2.2 : Int)

/-- `global_int_t currentGlobalRow = giz*gnx*gny+giy*gnx+gix;` -/
def globalRow (g : Geometry) (p : Nat × Nat × Nat) : Int :=
  gizP g p * g.gnx * g.gny + giyP g p * g.gnx + gixP g p

/-- `global_int_t curcol = currentGlobalRow+sz*gnx*gny+sy*gnx+sx;` -/
def colOf (g : Geometry) (p : Nat × Nat × Nat) (sz sy sx : Int) : Int :=
  globalRow g p + sz * g.gnx * g.gny + sy * g.gnx + sx

/-- The sequence of global column indices written for one row: the three
nested stencil loops `sz, sy, sx ∈ {-1,0,1}` with the per-axis bounds tests
`giz+sz>-1 && giz+sz<gnz` (and likewise for y and x) guarding each level. -/
def stencilCols (g : Geometry) (p : Nat × Nat × Nat) : List Int :=
  ([-1, 0, 1] : List Int).flatMap fun sz =>
    if -1 < gizP g p + sz ∧ gizP g p + sz < g.gnz then
      ([-1, 0, 1] : List Int).flatMap fun sy =>
        if -1 < giyP g p + sy ∧ giyP g p + sy < g.gny then
          ([-1, 0, 1] : List Int).flatMap fun sx =>
            if -1 < gixP g p + sx ∧ gixP g p + sx < g.gnx then
              [colOf g p sz sy sx]
            else []
        else []
    else []

/-- The matrix values written for one row, aligned slot-for-slot with
`stencilCols`: `27.0` when `curcol==currentGlobalRow`, else `-1.0`. -/
def rowValues (g : Geometry) (p : Nat × Nat × Nat) : List ℚ :=
  (stencilCols g p).map fun c => if c = globalRow g p then 27 else -1

/-- `matrixDiagonal[currentLocalRow] = currentValuePointer;` — the slot index
(write position) recorded when `curcol==currentGlobalRow`; each hit
overwrites the previous one, matching the pointer assignment. -/
def rowDiag (g : Geometry) (p : Nat × Nat × Nat) : Option Nat :=
  ((stencilCols g p).foldl
    (fun acc c => (if c = globalRow g p then some acc.2 else acc.1, acc.2 + 1))
    ((none : Option Nat), 0)).1

/-- `nonzerosInRow[currentLocalRow] = numberOfNonzerosInRow;` — the number of
stencil entries written for the row. -/
def nnzInRow (g : Geometry) (p : Nat × Nat × Nat) : Nat := (stencilCols g p).length

/-- `local_int_t localNumberOfRows = nx*ny*nz;` -/
def localNumberOfRows (g : Geometry) : Int := g.nx * g.ny * g.nz

/-- `global_int_t totalNumberOfRows = localNumberOfRows*geom.size;` -/
def totalNumberOfRows (g : Geometry) : Int := localNumberOfRows g * g.size

/-- `localNumberOfNonzeros += numberOfNonzerosInRow;` accumulated over all rows. -/
def localNumberOfNonzeros (g : Geometry) : Int :=
  ((localPoints g).map fun p => (nnzInRow g p : Int)).sum

/-- `totalNumberOfNonzeros = localNumberOfNonzeros;` — the single-process
(`HPCG_NOMPI`) branch, where the sum reduction is the identity. -/
def totalNumberOfNonzeros (g : Geometry) : Int := localNumberOfNonzeros g

/-- `A.globalToLocalMap[currentGlobalRow] = currentLocalRow;` performed for
every point in loop order, starting from the empty `std::map`. -/
def globalToLocalMap (g : Geometry) : Int → Option Int :=
  (localPoints g).foldl
    (fun m p => Function.update m (globalRow g p) (some (localRow g p : Int)))
    (fun _ => none)

/-- The outputs of `GenerateProblem` that the claims are about.  Per-row
arrays hold, for each local row, exactly the entries the loop wrote
(the first `nonzerosInRow[i]` slots of the length-27 C arrays). -/
structure ProblemData where
  nonzerosInRow : List Nat
  mtxIndG : List (List Int)
  matrixValues : List (List ℚ)
  matrixDiagonal : List (Option Nat)
  localToGlobalMap : List Int
  globalToLocalMap : Int → Option Int
  x : List ℚ
  b : List ℚ
  xexact : List ℚ
  localNumberOfRows : Int
  localNumberOfNonzeros : Int
  totalNumberOfRows : Int
  totalNumberOfNonzeros : Int

/-- The generation loop.  Every per-row array is written at index
`currentLocalRow`, which equals the iteration position (`localRow_getElem`
below), so each array is the map of its per-point value over `localPoints`.
`x`, `b`, `xexact` are the values `0.0`, `27.0 - (numberOfNonzerosInRow-1)`
and `1.0` written by the loop. -/
def generateProblem (g : Geometry) : ProblemData where
  nonzerosInRow := (localPoints g).map fun p => nnzInRow g p
  mtxIndG := (localPoints g).map fun p => stencilCols g p
  matrixValues := (localPoints g).map fun p => rowValues g p
  matrixDiagonal := (localPoints g).map fun p => rowDiag g p
  localToGlobalMap := (localPoints g).map fun p => globalRow g p
  globalToLocalMap := HPCG.globalToLocalMap g
  x := (localPoints g).map fun _ => 0
  b := (localPoints g).map fun p => 27 - ((nnzInRow g p : ℚ) - 1)
  xexact := (localPoints g).map fun _ => 1
  localNumberOfRows := localNumberOfRows g
  localNumberOfNonzeros := localNumberOfNonzeros g
  totalNumberOfRows := totalNumberOfRows g
  totalNumberOfNonzeros := totalNumberOfNonzeros g

/-- `GenerateProblem` guarded by its three `assert` statements
(`localNumberOfRows>0`, `totalNumberOfRows>0`, `totalNumberOfNonzeros>0`):
a failed assertion aborts the program, modelled by `none`. -/
def generateProblemChecked (g : Geometry) : Option ProblemData :=
  if 0 < localNumberOfRows g ∧ 0 < totalNumberOfRows g ∧ 0 < totalNumberOfNonzeros g then
    some (generateProblem g)
  else none

/-- A row of the grid is interior when all 26 stencil neighbours of its point
lie inside the global domain. -/
def interiorPoint (g : Geometry) (p : Nat × Nat × Nat) : Prop :=
  1 ≤ gixP g p ∧ gixP g p + 1 < g.gnx ∧
  1 ≤ giyP g p ∧ giyP g p + 1 < g.gny ∧
  1 ≤ gizP g p ∧ gizP g p + 1 < g.gnz

instance (g : Geometry) (p : Nat × Nat × Nat) : Decidable (interiorPoint g p) := by
  unfold interiorPoint; infer_instance

/-- The sequential (`HPCG_NOOPENMP`) local loop of `ComputeResidual`:
`double diff = std::fabs(v1[i] - v2[i]); if (diff > local_residual)
local_residual = diff;` starting from `local_residual = 0.0`. -/
def localResidual (n : Nat) (v1 v2 : Nat → ℚ) : ℚ :=
  (List.range n).foldl
    (fun local_residual i =>
      let diff := |v1 i - v2 i|
      if diff > local_residual then diff else local_residual)
    0

/-- `ComputeResidual` in a single-process (`HPCG_NOMPI`) build: writes the
local maximum to `*residual` and returns the status `0`. -/
def computeResidual (n : Nat) (v1 v2 : Nat → ℚ) : Int × ℚ :=
  (0, localResidual n v1 v2)

/-! ### Generic list lemmas -/

lemma flatMap_ite_eq_filter {α β : Type} (l : List α) (p : α → Prop) [DecidablePred p]
    (f : α → List β) :
    (l.flatMap fun a => if p a then f a else []) =
      (l.filter fun a => decide (p a)).flatMap f := by
  induction l with
  | nil => rfl
  | cons a t ih =>
    by_cases h : p a
    · simp [List.flatMap_cons, List.filter_cons, h, ih]
    · simp [List.flatMap_cons, List.filter_cons, h, ih]

lemma flatMap_singleton_eq_map {α β : Type} (l : List α) (f : α → β) :
    (l.flatMap fun a => [f a]) = l.map f := by
  induction l with
  | nil => rfl
  | cons a t ih => simp [List.flatMap_cons, ih]

lemma length_flatMap_const {α β : Type} {l : List α} {f : α → List β} (B : ℕ)
    (hB : ∀ a, (f a).length = B) : (l.flatMap f).length = l.length * B := by
  induction l with
  | nil => simp
  | cons a t ih =>
    simp only [List.flatMap_cons, List.length_append, ih, hB, List.length_cons]
    ring

lemma pairwise_flatMap {α β : Type} {R : β → β → Prop} {l : List α} {f : α → List β}
    (h1 : ∀ a ∈ l, (f a).Pairwise R)
    (h2 : l.Pairwise fun a b => ∀ x ∈ f a, ∀ y ∈ f b, R x y) :
    (l.flatMap f).Pairwise R := by
  induction l with
  | nil => simp
  | cons a t ih =>
    rw [List.flatMap_cons, List.pairwise_append]
    rcases List.pairwise_cons.mp h2 with ⟨ha, ht⟩
    refine ⟨h1 a (by simp), ih (fun b hb => h1 b (by simp [hb])) ht, ?_⟩
    intro x hx y hy
    rcases List.mem_flatMap.mp hy with ⟨b, hb, hyb⟩
    exact ha b hb x hx y hyb

lemma getElem?_flatMap_const {α β : Type} {f : α → List β} (B : ℕ)
    (hB : ∀ a, (f a).length = B) (l : List α) (i j : ℕ) (hj : j < B) :
    (l.flatMap f)[i * B + j]? = l[i]?.bind fun a => (f a)[j]? := by
  induction l generalizing i with
  | nil => simp
  | cons a t ih =>
    cases i with
    | zero =>
      rw [List.flatMap_cons, List.getElem?_append,
        if_pos (show 0 * B + j < (f a).length by rw [hB a]; omega)]
      simp
    | succ i' =>
      have hBmul : (i' + 1) * B = i' * B + B := by ring
      rw [List.flatMap_cons, List.getElem?_append_right (by rw [hB a]; omega)]
      have harith : (i' + 1) * B + j - (f a).length = i' * B + j := by
        rw [hB a]; omega
      rw [harith, ih i']
      simp

lemma foldl_update_of_ne {α : Type} {key : α → Int} {val : α → Int} {l : List α}
    {K : Int} (init : Int → Option Int) (h : ∀ a ∈ l, key a ≠ K) :
    (l.foldl (fun m x => Function.update m (key x) (some (val x))) init) K = init K := by
  induction l generalizing init with
  | nil => rfl
  | cons x t ih =>
    rw [List.foldl_cons, ih _ (fun a ha => h a (by simp [ha]))]
    exact Function.update_noteq (Ne.symm (h x (by simp))) _ _

lemma foldl_update_lookup {α : Type} {key : α → Int} {val : α → Int} {l : List α}
    (init : Int → Option Int) (hnd : (l.map key).Nodup) {a : α} (ha : a ∈ l) :
    (l.foldl (fun m x => Function.update m (key x) (some (val x))) init) (key a) =
      some (val a) := by
  induction l generalizing init with
  | nil => cases ha
  | cons x t ih =>
    rcases List.mem_cons.mp ha with rfl | hat
    · have hh : (∀ b ∈ t, ¬ key b = key a) ∧ (List.map key t).Nodup := by simpa using hnd
      rw [List.foldl_cons, foldl_update_of_ne _ hh.1]
      exact Function.update_same _ _ _
    · have hh : (∀ b ∈ t, ¬ key b = key x) ∧ (List.map key t).Nodup := by simpa using hnd
      rw [List.foldl_cons]
      exact ih _ hh.2 hat

lemma countP_eq_one_of_nodup_mem {α : Type} [DecidableEq α] {l : List α}
    (hnd : l.Nodup) {a : α} (ha : a ∈ l) :
    l.countP (fun x => decide (x = a)) = 1 := by
  induction l with
  | nil => cases ha
  | cons x t ih =>
    rcases List.nodup_cons.mp hnd with ⟨hnot, hndt⟩
    rcases List.mem_cons.mp ha with rfl | hat
    · rw [List.countP_cons_of_pos _ _ (by simp)]
      rw [List.countP_eq_zero.mpr (by intro b hb; simp; rintro rfl; exact hnot hb)]
    · rw [List.countP_cons_of_neg _ _ (by simp; rintro rfl; exact hnot hat)]
      exact ih hndt hat

/-! ### The write-position fold of `rowDiag` -/

lemma foldl_diag_none {K : Int} {l : List Int} (a : Option ℕ) (k : ℕ) (hK : K ∉ l) :
    (l.foldl (fun acc c => (if c = K then some acc.2 else acc.1, acc.2 + 1)) (a, k)).1 = a := by
  induction l generalizing a k with
  | nil => rfl
  | cons c t ih =>
    rw [List.foldl_cons, if_neg (by rintro rfl; exact hK (by simp))]
    exact ih a (k + 1) (fun h => hK (by simp [h]))

lemma foldl_diag_spec {K : Int} {l : List Int} (a : Option ℕ) (k : ℕ) (hK : K ∈ l) :
    ∃ j i, (l.foldl (fun acc c => (if c = K then some acc.2 else acc.1, acc.2 + 1)) (a, k)).1 =
        some j ∧ ∃ h : i < l.length, l.get ⟨i, h⟩ = K ∧ j = k + i := by
  induction l generalizing a k with
  | nil => cases hK
  | cons c t ih =>
    by_cases hmem : K ∈ t
    · obtain ⟨j, i, h1, hi, h2, h3⟩ := ih (if c = K then some k else a) (k + 1) hmem
      exact ⟨j, i + 1, by simpa [List.foldl_cons] using h1, by simpa using hi,
        by simpa using h2, by omega⟩
    · have hcK : c = K := by
        rcases List.mem_cons.mp hK with h | h
        · exact h.symm
        · exact absurd h hmem
      refine ⟨k, 0, ?_, by simp, by simp [hcK], by omega⟩
      rw [List.foldl_cons, if_pos hcK]
      exact foldl_diag_none _ _ hmem

/-! ### The running-maximum fold of `ComputeResidual` -/

lemma if_gt_eq_max (r d : ℚ) : (if d > r then d else r) = max r d := by
  rcases lt_or_ge r d with h | h
  · rw [if_pos h, max_eq_right h.le]
  · rw [if_neg (not_lt.mpr h), max_eq_left h]

lemma le_foldl_max {α : Type} (l : List α) (f : α → ℚ) (a : ℚ) :
    a ≤ l.foldl (fun r x => max r (f x)) a := by
  induction l generalizing a with
  | nil => exact le_refl a
  | cons x t ih => exact le_trans (le_max_left a (f x)) (ih (max a (f x)))

lemma foldl_max_ge {α : Type} {l : List α} (f : α → ℚ) (a : ℚ) {x : α} (hx : x ∈ l) :
    f x ≤ l.foldl (fun r y => max r (f y)) a := by
  induction l generalizing a with
  | nil => cases hx
  | cons y t ih =>
    rcases List.mem_cons.mp hx with rfl | hxt
    · exact le_trans (le_max_right a (f x)) (le_foldl_max t f (max a (f x)))
    · exact ih (max a (f y)) hxt

lemma foldl_max_attained {α : Type} (l : List α) (f : α → ℚ) (a : ℚ) :
    l.foldl (fun r x => max r (f x)) a = a ∨
      ∃ x ∈ l, l.foldl (fun r x => max r (f x)) a = f x := by
  induction l generalizing a with
  | nil => exact Or.inl rfl
  | cons x t ih =>
    rw [List.foldl_cons]
    rcases ih (max a (f x)) with h | ⟨y, hy, h⟩
    · rcases max_choice a (f x) with hm | hm
      · exact Or.inl (by rw [h, hm])
      · exact Or.inr ⟨x, by simp, by rw [h, hm]⟩
    · exact Or.inr ⟨y, by simp [hy], h⟩

/-! ### Linearisation arithmetic -/

lemma lin_inj {X Y : Int} (hX : 0 < X) (hY : 0 < Y) {x1 y1 z1 x2 y2 z2 : Int}
    (hx1 : 0 ≤ x1) (hx1X : x1 < X) (hx2 : 0 ≤ x2) (hx2X : x2 < X)
    (hy1 : 0 ≤ y1) (hy1Y : y1 < Y) (hy2 : 0 ≤ y2) (hy2Y : y2 < Y)
    (h : z1 * X * Y + y1 * X + x1 = z2 * X * Y + y2 * X + x2) :
    x1 = x2 ∧ y1 = y2 ∧ z1 = z2 := by
  have h' : x1 + X * (z1 * Y + y1) = x2 + X * (z2 * Y + y2) := by linear_combination h
  have hx : x1 = x2 := by
    have e1 := congrArg (· % X) h'
    simp only at e1
    rwa [Int.add_mul_emod_self_left, Int.add_mul_emod_self_left,
      Int.emod_eq_of_lt hx1 hx1X, Int.emod_eq_of_lt hx2 hx2X] at e1
  have h2 : z1 * Y + y1 = z2 * Y + y2 := by
    have := mul_left_cancel₀ (ne_of_gt hX) (show X * (z1 * Y + y1) = X * (z2 * Y + y2) by omega)
    exact this
  have h2' : y1 + Y * z1 = y2 + Y * z2 := by linear_combination h2
  have hy : y1 = y2 := by
    have e2 := congrArg (· % Y) h2'
    simp only at e2
    rwa [Int.add_mul_emod_self_left, Int.add_mul_emod_self_left,
      Int.emod_eq_of_lt hy1 hy1Y, Int.emod_eq_of_lt hy2 hy2Y] at e2
  have hz : z1 = z2 := mul_left_cancel₀ (ne_of_gt hY) (show Y * z1 = Y * z2 by omega)
  exact ⟨hx, hy, hz⟩

lemma lin_lt_z {X Y : Int} (hX : 0 < X) (hY : 0 < Y) {x1 y1 z1 x2 y2 z2 : Int}
    (hx1 : 0 ≤ x1) (hx1X : x1 < X)
    (hy1 : 0 ≤ y1) (hy1Y : y1 < Y) (hx2 : 0 ≤ x2) (hy2 : 0 ≤ y2)
    (hz : z1 < z2) : z1 * X * Y + y1 * X + x1 < z2 * X * Y + y2 * X + x2 := by
  have hXY : 0 < X * Y := mul_pos hX hY
  have k1 : y1 * X ≤ (Y - 1) * X := mul_le_mul_of_nonneg_right (by omega) (by omega)
  have k2 : (z1 + 1) * (X * Y) ≤ z2 * (X * Y) := mul_le_mul_of_nonneg_right (by omega) hXY.le
  have k3 : 0 ≤ y2 * X := mul_nonneg hy2 hX.le
  nlinarith [k1, k2, k3]

lemma lin_lt_y {X Y : Int} (hX : 0 < X) {x1 y1 x2 y2 z : Int}
    (hx1 : 0 ≤ x1) (hx1X : x1 < X) (hx2 : 0 ≤ x2)
    (hy : y1 < y2) : z * X * Y + y1 * X + x1 < z * X * Y + y2 * X + x2 := by
  have k1 : (y1 + 1) * X ≤ y2 * X := mul_le_mul_of_nonneg_right (by omega) hX.le
  nlinarith [k1]

/-- Bounds of a global axis coordinate `ip*n + i` for a valid geometry. -/
lemma axis_bound {ip np n : Int} {i : ℕ} (h0 : 0 ≤ ip) (h1 : ip < np) (h2 : 0 < n)
    (h3 : (i : Int) < n) : 0 ≤ ip * n + (i : Int) ∧ ip * n + (i : Int) < n * np := by
  constructor
  · have := mul_nonneg h0 h2.le
    omega
  · have k1 : (ip + 1) * n ≤ np * n := mul_le_mul_of_nonneg_right (by omega) h2.le
    nlinarith [k1]

/-! ### Iteration order of the generation loop -/

lemma length_localPoints (g : Geometry) :
    (localPoints g).length = g.nz.toNat * (g.ny.toNat * g.nx.toNat) := by
  unfold localPoints
  rw [length_flatMap_const (g.ny.toNat * g.nx.toNat) (fun iz => by
    rw [length_flatMap_const g.nx.toNat (fun iy => by simp), List.length_range]),
    List.length_range]

lemma localPoints_getElem? (g : Geometry) {ix iy iz : ℕ}
    (hx : ix < g.nx.toNat) (hy : iy < g.ny.toNat) (hz : iz < g.nz.toNat) :
    (localPoints g)[iz * (g.ny.toNat * g.nx.toNat) + (iy * g.nx.toNat + ix)]? =
      some (ix, iy, iz) := by
  have hyx : iy * g.nx.toNat + ix < g.ny.toNat * g.nx.toNat := by
    have h1 : (iy + 1) * g.nx.toNat ≤ g.ny.toNat * g.nx.toNat :=
      Nat.mul_le_mul_right _ (by omega)
    have h2 : (iy + 1) * g.nx.toNat = iy * g.nx.toNat + g.nx.toNat := by ring
    omega
  unfold localPoints
  rw [getElem?_flatMap_const (g.ny.toNat * g.nx.toNat) (fun iz' => by
      rw [length_flatMap_const g.nx.toNat (fun iy' => by simp), List.length_range]) _ iz _ hyx,
    List.getElem?_range hz]
  simp only [Option.some_bind]
  rw [getElem?_flatMap_const g.nx.toNat (fun iy' => by simp) _ iy _ hx,
    List.getElem?_range hy]
  simp [List.getElem?_range hx]

lemma exists_coords {g : Geometry} {r : ℕ} (hr : r < (localPoints g).length) :
    ∃ ix iy iz : ℕ, ix < g.nx.toNat ∧ iy < g.ny.toNat ∧ iz < g.nz.toNat ∧
      r = iz * (g.ny.toNat * g.nx.toNat) + (iy * g.nx.toNat + ix) := by
  rw [length_localPoints] at hr
  have hx0 : 0 < g.nx.toNat := by
    rcases Nat.eq_zero_or_pos g.nx.toNat with h | h
    · rw [h] at hr; simp at hr
    · exact h
  have hy0 : 0 < g.ny.toNat := by
    rcases Nat.eq_zero_or_pos g.ny.toNat with h | h
    · rw [h] at hr; simp at hr
    · exact h
  have hD0 : 0 < g.ny.toNat * g.nx.toNat := Nat.mul_pos hy0 hx0
  refine ⟨(r % (g.ny.toNat * g.nx.toNat)) % g.nx.toNat,
    (r % (g.ny.toNat * g.nx.toNat)) / g.nx.toNat,
    r / (g.ny.toNat * g.nx.toNat), Nat.mod_lt _ hx0, ?_, ?_, ?_⟩
  · rw [Nat.div_lt_iff_lt_mul hx0]
    exact Nat.mod_lt _ hD0
  · rw [Nat.div_lt_iff_lt_mul hD0]
    exact hr
  · have e1 := Nat.div_add_mod r (g.ny.toNat * g.nx.toNat)
    have e2 := Nat.div_add_mod (r % (g.ny.toNat * g.nx.toNat)) g.nx.toNat
    have c1 : (g.ny.toNat * g.nx.toNat) * (r / (g.ny.toNat * g.nx.toNat)) =
        (r / (g.ny.toNat * g.nx.toNat)) * (g.ny.toNat * g.nx.toNat) := Nat.mul_comm _ _
    have c2 : g.nx.toNat * ((r % (g.ny.toNat * g.nx.toNat)) / g.nx.toNat) =
        ((r % (g.ny.toNat * g.nx.toNat)) / g.nx.toNat) * g.nx.toNat := Nat.mul_comm _ _
    omega

lemma localRow_getIndex {g : Geometry} {r : ℕ} (hr : r < (localPoints g).length) :
    ∃ p, (localPoints g)[r]? = some p ∧ localRow g p = r := by
  obtain ⟨ix, iy, iz, hx, hy, hz, hreq⟩ := exists_coords hr
  subst hreq
  refine ⟨(ix, iy, iz), localPoints_getElem? g hx hy hz, ?_⟩
  unfold localRow
  simp only
  ring

lemma localRow_get {g : Geometry} {r : ℕ} (hr : r < (localPoints g).length) :
    localRow g ((localPoints g).get ⟨r, hr⟩) = r := by
  obtain ⟨p, h1, h2⟩ := localRow_getIndex hr
  rw [List.getElem?_eq_getElem hr] at h1
  rw [List.get_eq_getElem]
  rw [Option.some_inj.mp h1]
  exact h2

lemma nodup_localPoints (g : Geometry) : (localPoints g).Nodup := by
  rw [List.nodup_iff_injective_get]
  intro a b hab
  have ha := localRow_get a.2
  have hb := localRow_get b.2
  apply Fin.ext
  rw [← ha, ← hb]
  congr 1

lemma mem_localPoints {g : Geometry} {p : ℕ × ℕ × ℕ} :
    p ∈ localPoints g ↔ p.1 < g.nx.toNat ∧ p.2.1 < g.ny.toNat ∧ p.2.2 < g.nz.toNat := by
  obtain ⟨ix, iy, iz⟩ := p
  unfold localPoints
  constructor
  · intro h
    rcases List.mem_flatMap.mp h with ⟨iz', hiz, h2⟩
    rcases List.mem_flatMap.mp h2 with ⟨iy', hiy, h3⟩
    rcases List.mem_map.mp h3 with ⟨ix', hix, heq⟩
    obtain ⟨rfl, rfl, rfl⟩ : ix' = ix ∧ iy' = iy ∧ iz' = iz := by
      simpa [Prod.ext_iff] using heq
    exact ⟨List.mem_range.mp hix, List.mem_range.mp hiy, List.mem_range.mp hiz⟩
  · rintro ⟨h1, h2, h3⟩
    exact List.mem_flatMap.mpr ⟨iz, List.mem_range.mpr h3,
      List.mem_flatMap.mpr ⟨iy, List.mem_range.mpr h2,
        List.mem_map.mpr ⟨ix, List.mem_range.mpr h1, rfl⟩⟩⟩

/-! ### The stencil as filtered axis offsets -/

/-- The values of `sz` whose bounds test `giz+sz>-1 && giz+sz<gnz` passes. -/
def zOffsets (g : Geometry) (p : ℕ × ℕ × ℕ) : List Int :=
  ([-1, 0, 1] : List Int).filter fun sz =>
    decide (-1 < gizP g p + sz ∧ gizP g p + sz < g.gnz)

/-- The values of `sy` whose bounds test passes. -/
def yOffsets (g : Geometry) (p : ℕ × ℕ × ℕ) : List Int :=
  ([-1, 0, 1] : List Int).filter fun sy =>
    decide (-1 < giyP g p + sy ∧ giyP g p + sy < g.gny)

/-- The values of `sx` whose bounds test passes. -/
def xOffsets (g : Geometry) (p : ℕ × ℕ × ℕ) : List Int :=
  ([-1, 0, 1] : List Int).filter fun sx =>
    decide (-1 < gixP g p + sx ∧ gixP g p + sx < g.gnx)

lemma stencilCols_eq (g : Geometry) (p : ℕ × ℕ × ℕ) :
    stencilCols g p = (zOffsets g p).flatMap fun sz => (yOffsets g p).flatMap fun sy =>
      (xOffsets g p).map fun sx => colOf g p sz sy sx := by
  unfold stencilCols zOffsets yOffsets xOffsets
  rw [flatMap_ite_eq_filter]
  congr 1
  funext sz
  rw [flatMap_ite_eq_filter]
  congr 1
  funext sy
  rw [flatMap_ite_eq_filter, flatMap_singleton_eq_map]

lemma mem_zOffsets {g : Geometry} {p : ℕ × ℕ × ℕ} {sz : Int} :
    sz ∈ zOffsets g p ↔
      (sz = -1 ∨ sz = 0 ∨ sz = 1) ∧ -1 < gizP g p + sz ∧ gizP g p + sz < g.gnz := by
  unfold zOffsets
  simp [List.mem_filter]

lemma mem_yOffsets {g : Geometry} {p : ℕ × ℕ × ℕ} {sy : Int} :
    sy ∈ yOffsets g p ↔
      (sy = -1 ∨ sy = 0 ∨ sy = 1) ∧ -1 < giyP g p + sy ∧ giyP g p + sy < g.gny := by
  unfold yOffsets
  simp [List.mem_filter]

lemma mem_xOffsets {g : Geometry} {p : ℕ × ℕ × ℕ} {sx : Int} :
    sx ∈ xOffsets g p ↔
      (sx = -1 ∨ sx = 0 ∨ sx = 1) ∧ -1 < gixP g p + sx ∧ gixP g p + sx < g.gnx := by
  unfold xOffsets
  simp [List.mem_filter]

/-- Number of values of one stencil axis offset passing the bounds test for a
point with global coordinate `c` on an axis of global extent `gn`. -/
def axisCount (c gn : Int) : ℕ :=
  (([-1, 0, 1] : List Int).filter fun s => decide (-1 < c + s ∧ c + s < gn)).length

lemma axisCount_eq {c gn : Int} (h0 : 0 ≤ c) (h1 : c < gn) :
    axisCount c gn = (if 1 ≤ c then 1 else 0) + 1 + (if c + 1 < gn then 1 else 0) := by
  unfold axisCount
  simp only [List.filter_cons, List.filter_nil, decide_eq_true_eq]
  split_ifs <;> simp_all <;> omega

lemma axisCount_le_three (c gn : Int) : axisCount c gn ≤ 3 :=
  List.length_filter_le _ _

lemma axisCount_pos {c gn : Int} (h0 : 0 ≤ c) (h1 : c < gn) : 1 ≤ axisCount c gn := by
  rw [axisCount_eq h0 h1]; split_ifs <;> omega

lemma two_le_axisCount {c gn : Int} (h0 : 0 ≤ c) (h1 : c < gn) (h2 : 2 ≤ gn) :
    2 ≤ axisCount c gn := by
  rw [axisCount_eq h0 h1]; split_ifs <;> omega

lemma axisCount_eq_three {c gn : Int} (h1 : 1 ≤ c) (h2 : c + 1 < gn) :
    axisCount c gn = 3 := by
  rw [axisCount_eq (by omega) (by omega)]; split_ifs <;> omega

lemma axisCount_eq_two_iff {c gn : Int} (h0 : 0 ≤ c) (h1 : c < gn) (h2 : 2 ≤ gn) :
    axisCount c gn = 2 ↔ (c = 0 ∨ c = gn - 1) := by
  rw [axisCount_eq h0 h1]; split_ifs <;> omega

lemma nnzInRow_eq (g : Geometry) (p : ℕ × ℕ × ℕ) :
    nnzInRow g p = axisCount (gizP g p) g.gnz *
      (axisCount (giyP g p) g.gny * axisCount (gixP g p) g.gnx) := by
  unfold nnzInRow
  rw [stencilCols_eq]
  have hinner : ∀ sz : Int, ((yOffsets g p).flatMap fun sy =>
      (xOffsets g p).map fun sx => colOf g p sz sy sx).length =
      (yOffsets g p).length * (xOffsets g p).length := fun sz =>
    length_flatMap_const ((xOffsets g p).length) (fun sy => by simp)
  rw [length_flatMap_const ((yOffsets g p).length * (xOffsets g p).length) hinner]
  rfl

lemma gCoord_bounds {g : Geometry} (hv : g.valid) {p : ℕ × ℕ × ℕ}
    (hp : p ∈ localPoints g) :
    (0 ≤ gixP g p ∧ gixP g p < g.gnx) ∧ (0 ≤ giyP g p ∧ giyP g p < g.gny) ∧
    (0 ≤ gizP g p ∧ gizP g p < g.gnz) := by
  obtain ⟨h1, h2, h3⟩ := mem_localPoints.mp hp
  obtain ⟨hnx, hny, hnz, hnpx, hnpy, hnpz, hipx0, hipx, hipy0, hipy, hipz0, hipz, hsz⟩ := hv
  exact ⟨axis_bound hipx0 hipx hnx (by omega), axis_bound hipy0 hipy hny (by omega),
    axis_bound hipz0 hipz hnz (by omega)⟩

/-! ### Ordering, diagonal and injectivity facts about the stencil -/

lemma colOf_eq_lin (g : Geometry) (p : ℕ × ℕ × ℕ) (sz sy sx : Int) :
    colOf g p sz sy sx = (gizP g p + sz) * g.gnx * g.gny + (giyP g p + sy) * g.gnx +
      (gixP g p + sx) := by
  unfold colOf globalRow
  ring

lemma gnx_pos {g : Geometry} (hv : g.valid) : 0 < g.gnx := by
  obtain ⟨hnx, _, _, hnpx, _⟩ := hv
  exact mul_pos hnx hnpx

lemma gny_pos {g : Geometry} (hv : g.valid) : 0 < g.gny := by
  obtain ⟨_, hny, _, _, hnpy, _⟩ := hv
  exact mul_pos hny hnpy

lemma stencilCols_pairwise {g : Geometry} (hv : g.valid) {p : ℕ × ℕ × ℕ}
    (hp : p ∈ localPoints g) : (stencilCols g p).Pairwise (· < ·) := by
  have hgnx : 0 < g.gnx := gnx_pos hv
  have hgny : 0 < g.gny := gny_pos hv
  rw [stencilCols_eq]
  apply pairwise_flatMap
  · intro sz hsz
    apply pairwise_flatMap
    · intro sy hsy
      rw [List.pairwise_map]
      refine List.Pairwise.imp ?_ (List.Pairwise.filter _
        (show ([-1, 0, 1] : List Int).Pairwise (· < ·) by decide))
      intro sx sx' h
      unfold colOf
      omega
    · refine List.Pairwise.imp_of_mem ?_ (List.Pairwise.filter _
        (show ([-1, 0, 1] : List Int).Pairwise (· < ·) by decide))
      intro sy sy' hmy hmy' hlt x hx y hy
      rcases List.mem_map.mp hx with ⟨sx, hsx, rfl⟩
      rcases List.mem_map.mp hy with ⟨sx', hsx', rfl⟩
      obtain ⟨-, hbx⟩ := mem_xOffsets.mp hsx
      obtain ⟨-, hbx'⟩ := mem_xOffsets.mp hsx'
      rw [colOf_eq_lin, colOf_eq_lin]
      exact lin_lt_y hgnx (by omega) (by omega) (by omega) (by omega)
  · refine List.Pairwise.imp_of_mem ?_ (List.Pairwise.filter _
      (show ([-1, 0, 1] : List Int).Pairwise (· < ·) by decide))
    intro sz sz' hmz hmz' hlt x hx y hy
    rcases List.mem_flatMap.mp hx with ⟨sy, hsy, hx2⟩
    rcases List.mem_map.mp hx2 with ⟨sx, hsx, rfl⟩
    rcases List.mem_flatMap.mp hy with ⟨sy', hsy', hy2⟩
    rcases List.mem_map.mp hy2 with ⟨sx', hsx', rfl⟩
    obtain ⟨-, hbx⟩ := mem_xOffsets.mp hsx
    obtain ⟨-, hby⟩ := mem_yOffsets.mp hsy
    obtain ⟨-, hbx'⟩ := mem_xOffsets.mp hsx'
    obtain ⟨-, hby'⟩ := mem_yOffsets.mp hsy'
    rw [colOf_eq_lin, colOf_eq_lin]
    exact lin_lt_z hgnx hgny (by omega) (by omega) (by omega) (by omega) (by omega)
      (by omega) (by omega)

lemma stencilCols_nodup {g : Geometry} (hv : g.valid) {p : ℕ × ℕ × ℕ}
    (hp : p ∈ localPoints g) : (stencilCols g p).Nodup :=
  (stencilCols_pairwise hv hp).imp ne_of_lt

lemma globalRow_mem_stencilCols {g : Geometry} (hv : g.valid) {p : ℕ × ℕ × ℕ}
    (hp : p ∈ localPoints g) : globalRow g p ∈ stencilCols g p := by
  obtain ⟨⟨hx0, hx1⟩, ⟨hy0, hy1⟩, ⟨hz0, hz1⟩⟩ := gCoord_bounds hv hp
  rw [stencilCols_eq]
  refine List.mem_flatMap.mpr ⟨0, mem_zOffsets.mpr ⟨by simp, by omega, by omega⟩, ?_⟩
  refine List.mem_flatMap.mpr ⟨0, mem_yOffsets.mpr ⟨by simp, by omega, by omega⟩, ?_⟩
  refine List.mem_map.mpr ⟨0, mem_xOffsets.mpr ⟨by simp, by omega, by omega⟩, ?_⟩
  unfold colOf
  ring

lemma colOf_eq_globalRow_iff {g : Geometry} (hv : g.valid) {p : ℕ × ℕ × ℕ}
    (hp : p ∈ localPoints g) {sz sy sx : Int} (hsz : sz ∈ zOffsets g p)
    (hsy : sy ∈ yOffsets g p) (hsx : sx ∈ xOffsets g p) :
    colOf g p sz sy sx = globalRow g p ↔ sz = 0 ∧ sy = 0 ∧ sx = 0 := by
  constructor
  · intro h
    obtain ⟨⟨hx0, hx1⟩, ⟨hy0, hy1⟩, ⟨hz0, hz1⟩⟩ := gCoord_bounds hv hp
    obtain ⟨-, hbz⟩ := mem_zOffsets.mp hsz
    obtain ⟨-, hby⟩ := mem_yOffsets.mp hsy
    obtain ⟨-, hbx⟩ := mem_xOffsets.mp hsx
    rw [colOf_eq_lin] at h
    have hlin := lin_inj (gnx_pos hv) (gny_pos hv) (by omega) (by omega) hx0 hx1
      (by omega) (by omega) hy0 hy1 (show _ = _ from h)
    obtain ⟨e1, e2, e3⟩ := hlin
    omega
  · rintro ⟨rfl, rfl, rfl⟩
    unfold colOf
    ring

lemma globalRow_inj {g : Geometry} (hv : g.valid) {p q : ℕ × ℕ × ℕ}
    (hp : p ∈ localPoints g) (hq : q ∈ localPoints g)
    (h : globalRow g p = globalRow g q) : p = q := by
  obtain ⟨⟨hx0, hx1⟩, ⟨hy0, hy1⟩, ⟨hz0, hz1⟩⟩ := gCoord_bounds hv hp
  obtain ⟨⟨kx0, kx1⟩, ⟨ky0, ky1⟩, ⟨kz0, kz1⟩⟩ := gCoord_bounds hv hq
  unfold globalRow at h
  obtain ⟨e1, e2, e3⟩ := lin_inj (gnx_pos hv) (gny_pos hv) hx0 hx1 kx0 kx1 hy0 hy1
    ky0 ky1 h
  obtain ⟨px, py, pz⟩ := p
  obtain ⟨qx, qy, qz⟩ := q
  simp only [gixP, giyP, gizP] at e1 e2 e3
  have : px = qx ∧ py = qy ∧ pz = qz := by omega
  simp [Prod.ext_iff, this.1, this.2.1, this.2.2]

lemma nnz_pos {g : Geometry} (hv : g.valid) {p : ℕ × ℕ × ℕ}
    (hp : p ∈ localPoints g) : 1 ≤ nnzInRow g p :=
  List.length_pos_of_mem (globalRow_mem_stencilCols hv hp)

lemma nnz_in_range {g : Geometry} (hv : g.valid) {p : ℕ × ℕ × ℕ}
    (hp : p ∈ localPoints g) (h2x : 2 ≤ g.gnx) (h2y : 2 ≤ g.gny) (h2z : 2 ≤ g.gnz) :
    8 ≤ nnzInRow g p ∧ nnzInRow g p ≤ 27 := by
  obtain ⟨⟨hx0, hx1⟩, ⟨hy0, hy1⟩, ⟨hz0, hz1⟩⟩ := gCoord_bounds hv hp
  rw [nnzInRow_eq]
  have cx := two_le_axisCount hx0 hx1 h2x
  have cy := two_le_axisCount hy0 hy1 h2y
  have cz := two_le_axisCount hz0 hz1 h2z
  have dx := axisCount_le_three (gixP g p) g.gnx
  have dy := axisCount_le_three (giyP g p) g.gny
  have dz := axisCount_le_three (gizP g p) g.gnz
  constructor
  · calc (8 : ℕ) = 2 * (2 * 2) := rfl
    _ ≤ _ := Nat.mul_le_mul cz (Nat.mul_le_mul cy cx)
  · calc axisCount (gizP g p) g.gnz * (axisCount (giyP g p) g.gny *
        axisCount (gixP g p) g.gnx) ≤ 3 * (3 * 3) :=
          Nat.mul_le_mul dz (Nat.mul_le_mul dy dx)
    _ = 27 := rfl

lemma nnz_interior {g : Geometry} (hv : g.valid) {p : ℕ × ℕ × ℕ}
    (hp : p ∈ localPoints g) (hint : interiorPoint g p) : nnzInRow g p = 27 := by
  obtain ⟨i1, i2, i3, i4, i5, i6⟩ := hint
  rw [nnzInRow_eq, axisCount_eq_three i5 i6, axisCount_eq_three i3 i4,
    axisCount_eq_three i1 i2]

lemma localNumberOfNonzeros_pos {g : Geometry} (hv : g.valid) :
    0 < localNumberOfNonzeros g := by
  unfold localNumberOfNonzeros
  apply List.sum_pos
  · intro x hx
    rcases List.mem_map.mp hx with ⟨p, hp, rfl⟩
    have h1 := nnz_pos hv hp
    omega
  · have hlen : 0 < (localPoints g).length := by
      rw [length_localPoints]
      obtain ⟨hnx, hny, hnz, -⟩ := hv
      have e1 : 0 < g.nx.toNat := by omega
      have e2 : 0 < g.ny.toNat := by omega
      have e3 : 0 < g.nz.toNat := by omega
      exact Nat.mul_pos e3 (Nat.mul_pos e2 e1)
    intro hemp
    have hlen0 : (localPoints g).length = 0 := by
      simpa using congrArg List.length hemp
    omega

lemma getElem?_gen_map {g : Geometry} {β : Type} (f : (ℕ × ℕ × ℕ) → β) {r : ℕ}
    (hr : r < (localPoints g).length) :
    ((localPoints g).map f)[r]? = some (f ((localPoints g).get ⟨r, hr⟩)) := by
  rw [List.getElem?_map, List.getElem?_eq_getElem hr]
  simp [List.get_eq_getElem]

/-! ### Concrete geometries used by witnesses and counterexamples -/

/-- A 2×2×2 local grid on a single process. -/
def gW : Geometry := ⟨2, 2, 2, 1, 1, 1, 0, 0, 0, 1⟩

/-- A 3×3×3 local grid on the centre process of a 3×3×3 process grid. -/
def gW4 : Geometry := ⟨3, 3, 3, 3, 3, 3, 1, 1, 1, 27⟩

/-- A single grid point on a single process. -/
def gOne : Geometry := ⟨1, 1, 1, 1, 1, 1, 0, 0, 0, 1⟩

/-- A 3×3×3 local grid on the corner process of a 3×3×3 process grid. -/
def gCorner : Geometry := ⟨3, 3, 3, 3, 3, 3, 0, 0, 0, 27⟩

/-- Concrete first input vector of the residual test. -/
def v1W : ℕ → ℚ := fun i => [1, 5, 2].getD i 0

/-- Concrete second input vector of the residual test. -/
def v2W : ℕ → ℚ := fun i => [1, 2, 2].getD i 0

/-! ### Claim theorems -/

/-- C1: for a single-process run of `ComputeResidual` with `n ≥ 0`, the value
written to `*residual` equals the maximum over `i ∈ [0,n)` of `|v1[i]-v2[i]|`
(it is an upper bound that is attained when `n > 0`); it is exactly `0.0`
when the vectors agree, and for `n = 0` the result is the zero contribution
`0.0`, not a sentinel. -/
theorem C1_computeResidual_infNorm (n : ℕ) (v1 v2 : ℕ → ℚ) :
    (∀ i, i < n → |v1 i - v2 i| ≤ (computeResidual n v1 v2).2) ∧
    (n = 0 → (computeResidual n v1 v2).2 = 0) ∧
    (0 < n → ∃ i, i < n ∧ (computeResidual n v1 v2).2 = |v1 i - v2 i|) ∧
    ((∀ i, i < n → v1 i = v2 i) → (computeResidual n v1 v2).2 = 0) := by
  have hfold : (computeResidual n v1 v2).2 =
      (List.range n).foldl (fun r i => max r (|v1 i - v2 i|)) 0 := by
    show localResidual n v1 v2 = _
    unfold localResidual
    congr 1
    funext r i
    show (if |v1 i - v2 i| > r then |v1 i - v2 i| else r) = _
    exact if_gt_eq_max r (|v1 i - v2 i|)
  rw [hfold]
  refine ⟨?_, ?_, ?_, ?_⟩
  · intro i hi
    exact foldl_max_ge _ 0 (List.mem_range.mpr hi)
  · rintro rfl
    rfl
  · intro hn
    rcases foldl_max_attained (List.range n) (fun i => |v1 i - v2 i|) 0 with h | ⟨i, hi, h⟩
    · refine ⟨0, hn, ?_⟩
      have h1 := foldl_max_ge (fun i => |v1 i - v2 i|) 0 (List.mem_range.mpr hn)
      rw [h] at h1 ⊢
      have h2 : (0:ℚ) ≤ |v1 0 - v2 0| := abs_nonneg _
      linarith
    · exact ⟨i, List.mem_range.mp hi, h⟩
  · intro hsame
    rcases foldl_max_attained (List.range n) (fun i => |v1 i - v2 i|) 0 with h | ⟨i, hi, h⟩
    · exact h
    · rw [h, hsame i (List.mem_range.mp hi), sub_self, abs_zero]

/-- Witness for C1 at the concrete single-process input `[1,5,2]`, `[1,2,2]`. -/
theorem C1_witness :
    0 < 3 ∧ ∃ i, i < 3 ∧ (computeResidual 3 v1W v2W).2 = |v1W i - v2W i| :=
  ⟨by decide, (C1_computeResidual_infNorm 3 v1W v2W).2.2.1 (by decide)⟩

/-- C10: `ComputeResidual` returns the integer status `0` for every input. -/
theorem C10_computeResidual_status (n : ℕ) (v1 v2 : ℕ → ℚ) :
    (computeResidual n v1 v2).1 = 0 := rfl

/-- C6: the three size assertions of `GenerateProblem` hold — hence the fatal
branches are unreachable — for every geometry with positive extents, a
process coordinate inside the grid and a positive process count (no overflow
occurs in the `Int` model), and the guarded generator succeeds. -/
theorem C6_generateProblem_asserts (g : Geometry) (hv : g.valid) :
    (0 < localNumberOfRows g ∧ 0 < totalNumberOfRows g ∧ 0 < totalNumberOfNonzeros g) ∧
    generateProblemChecked g = some (generateProblem g) := by
  obtain ⟨hnx, hny, hnz, hnpx, hnpy, hnpz, hipx0, hipx, hipy0, hipy, hipz0, hipz, hsz⟩ := hv
  have h1 : 0 < localNumberOfRows g := mul_pos (mul_pos hnx hny) hnz
  have h2 : 0 < totalNumberOfRows g := mul_pos h1 hsz
  have h3 : 0 < totalNumberOfNonzeros g :=
    localNumberOfNonzeros_pos ⟨hnx, hny, hnz, hnpx, hnpy, hnpz, hipx0, hipx, hipy0,
      hipy, hipz0, hipz, hsz⟩
  refine ⟨⟨h1, h2, h3⟩, ?_⟩
  unfold generateProblemChecked
  rw [if_pos ⟨h1, h2, h3⟩]

/-- Witness for C6 at the concrete 2×2×2 single-process geometry. -/
theorem C6_witness :
    Geometry.valid gW ∧ generateProblemChecked gW = some (generateProblem gW) :=
  ⟨by decide, (C6_generateProblem_asserts gW (by decide)).2⟩

/-- C3: after `GenerateProblem` the local-to-global map has exactly one entry
per local row, its values are pairwise distinct, and applying the
global-to-local map to the global index of any local row `r` returns `r`. -/
theorem C3_index_maps_roundtrip (g : Geometry) (hv : g.valid) :
    ((generateProblem g).localToGlobalMap.length : Int) =
      (generateProblem g).localNumberOfRows ∧
    (generateProblem g).localToGlobalMap.Nodup ∧
    ∀ r : ℕ, r < (generateProblem g).localToGlobalMap.length →
      ∃ grow, (generateProblem g).localToGlobalMap[r]? = some grow ∧
        (generateProblem g).globalToLocalMap grow = some (r : Int) := by
  have hmap : (generateProblem g).localToGlobalMap =
      (localPoints g).map fun p => globalRow g p := rfl
  have hlen : (generateProblem g).localToGlobalMap.length = (localPoints g).length := by
    rw [hmap, List.length_map]
  have hkeys : ((localPoints g).map fun p => globalRow g p).Nodup :=
    List.Nodup.map_on (fun p hp q hq h => globalRow_inj hv hp hq h) (nodup_localPoints g)
  refine ⟨?_, ?_, ?_⟩
  · rw [hlen, length_localPoints]
    obtain ⟨hnx, hny, hnz, -⟩ := hv
    show ((g.nz.toNat * (g.ny.toNat * g.nx.toNat) : ℕ) : Int) = g.nx * g.ny * g.nz
    push_cast
    rw [Int.toNat_of_nonneg hnx.le, Int.toNat_of_nonneg hny.le, Int.toNat_of_nonneg hnz.le]
    ring
  · rw [hmap]
    exact hkeys
  · intro r hr
    rw [hlen] at hr
    refine ⟨globalRow g ((localPoints g).get ⟨r, hr⟩), ?_, ?_⟩
    · exact getElem?_gen_map _ hr
    · show HPCG.globalToLocalMap g _ = _
      unfold HPCG.globalToLocalMap
      rw [foldl_update_lookup (fun _ => none) hkeys (List.get_mem _ r hr)]
      rw [localRow_get hr]

/-- Witness for C3 at the concrete 2×2×2 single-process geometry. -/
theorem C3_witness :
    ((generateProblem gW).localToGlobalMap.length : Int) =
      (generateProblem gW).localNumberOfRows ∧
    (generateProblem gW).localToGlobalMap.Nodup ∧
    ∀ r : ℕ, r < (generateProblem gW).localToGlobalMap.length →
      ∃ grow, (generateProblem gW).localToGlobalMap[r]? = some grow ∧
        (generateProblem gW).globalToLocalMap grow = some (r : Int) :=
  C3_index_maps_roundtrip gW (by decide)

/-- C5: after `GenerateProblem`, `x[r] = 0.0`, `xexact[r] = 1.0`,
`b[r] = 27.0 - (nnzInRow(r) - 1)` for every local row `r`, and the sum of `b`
equals the sum over rows of `(27 - (nnz[r]-1)) * xexact[r]`. -/
theorem C5_vector_values (g : Geometry) :
    (∀ r : ℕ, r < (localPoints g).length →
      (generateProblem g).x[r]? = some 0 ∧
      (generateProblem g).xexact[r]? = some 1 ∧
      ∃ c, (generateProblem g).nonzerosInRow[r]? = some c ∧
        (generateProblem g).b[r]? = some (27 - ((c : ℚ) - 1))) ∧
    (generateProblem g).b.sum = (List.zipWith
      (fun (c : ℕ) (xe : ℚ) => (27 - ((c : ℚ) - 1)) * xe)
      (generateProblem g).nonzerosInRow (generateProblem g).xexact).sum := by
  constructor
  · intro r hr
    exact ⟨getElem?_gen_map _ hr, getElem?_gen_map _ hr,
      ⟨nnzInRow g ((localPoints g).get ⟨r, hr⟩), getElem?_gen_map _ hr,
        getElem?_gen_map _ hr⟩⟩
  · show ((localPoints g).map fun p => 27 - ((nnzInRow g p : ℚ) - 1)).sum =
      (List.zipWith (fun (c : ℕ) (xe : ℚ) => (27 - ((c : ℚ) - 1)) * xe)
        ((localPoints g).map fun p => nnzInRow g p)
        ((localPoints g).map fun _ => (1 : ℚ))).sum
    rw [List.zipWith_map_left, List.zipWith_map_right, List.zipWith_same]
    simp [mul_one]

/-- Witness for C5: the per-row clause instantiated at row 0 of the concrete
2×2×2 single-process geometry. -/
theorem C5_witness :
    (generateProblem gW).x[0]? = some 0 ∧
    (generateProblem gW).xexact[0]? = some 1 ∧
    ∃ c : ℕ, (generateProblem gW).nonzerosInRow[0]? = some c ∧
      (generateProblem gW).b[0]? = some (27 - ((c : ℚ) - 1)) :=
  (C5_vector_values gW).1 0 (by decide)

/-- C9: for every generated local row, the stored sequence of global column
indices is strictly increasing, hence pairwise distinct. -/
theorem C9_columns_sorted (g : Geometry) (hv : g.valid) (r : ℕ)
    (hr : r < (localPoints g).length) :
    ∃ cols, (generateProblem g).mtxIndG[r]? = some cols ∧
      cols.Pairwise (· < ·) ∧ cols.Nodup := by
  have hp : (localPoints g).get ⟨r, hr⟩ ∈ localPoints g := List.get_mem _ r hr
  exact ⟨stencilCols g ((localPoints g).get ⟨r, hr⟩), getElem?_gen_map _ hr,
    stencilCols_pairwise hv hp, stencilCols_nodup hv hp⟩

/-- Witness for C9 at row 0 of the concrete 2×2×2 single-process geometry. -/
theorem C9_witness :
    ∃ cols, (generateProblem gW).mtxIndG[0]? = some cols ∧
      cols.Pairwise (· < ·) ∧ cols.Nodup :=
  C9_columns_sorted gW (by decide) 0 (by decide)

lemma rowValues_getElem? {g : Geometry} {p : ℕ × ℕ × ℕ} {j : ℕ}
    (hj : j < (stencilCols g p).length) :
    (rowValues g p)[j]? = some (if (stencilCols g p).get ⟨j, hj⟩ = globalRow g p
      then (27:ℚ) else -1) := by
  unfold rowValues
  rw [List.getElem?_map, List.getElem?_eq_getElem hj]
  simp [List.get_eq_getElem]

/-- C2: for every generated local row, the stored entry whose global column
equals the row's own global row index has value exactly 27.0, every other
stored entry has value exactly −1.0, exactly one such diagonal entry exists,
and `matrixDiagonal[row]` records its slot. -/
theorem C2_diagonal_values (g : Geometry) (hv : g.valid) (r : ℕ)
    (hr : r < (localPoints g).length) :
    ∃ grow cols vals diag,
      (generateProblem g).localToGlobalMap[r]? = some grow ∧
      (generateProblem g).mtxIndG[r]? = some cols ∧
      (generateProblem g).matrixValues[r]? = some vals ∧
      (generateProblem g).matrixDiagonal[r]? = some diag ∧
      (∀ j : ℕ, ∀ hj : j < cols.length,
        (cols.get ⟨j, hj⟩ = grow → vals[j]? = some 27) ∧
        (cols.get ⟨j, hj⟩ ≠ grow → vals[j]? = some (-1))) ∧
      (∃ j, ∃ hj : j < cols.length, cols.get ⟨j, hj⟩ = grow ∧ diag = some j ∧
        ∀ j' : ℕ, ∀ hj' : j' < cols.length, cols.get ⟨j', hj'⟩ = grow → j' = j) := by
  have hp : (localPoints g).get ⟨r, hr⟩ ∈ localPoints g := List.get_mem _ r hr
  refine ⟨globalRow g ((localPoints g).get ⟨r, hr⟩),
    stencilCols g ((localPoints g).get ⟨r, hr⟩),
    rowValues g ((localPoints g).get ⟨r, hr⟩),
    rowDiag g ((localPoints g).get ⟨r, hr⟩),
    getElem?_gen_map _ hr, getElem?_gen_map _ hr, getElem?_gen_map _ hr,
    getElem?_gen_map _ hr, ?_, ?_⟩
  · intro j hj
    constructor
    · intro hcol
      rw [rowValues_getElem? hj, if_pos hcol]
    · intro hcol
      rw [rowValues_getElem? hj, if_neg hcol]
  · have hmem := globalRow_mem_stencilCols hv hp
    obtain ⟨j, i, hsome, hi, hgK, hji⟩ := foldl_diag_spec none 0 hmem
    have hji' : j = i := by omega
    subst hji'
    refine ⟨j, hi, hgK, hsome, ?_⟩
    intro j' hj' hcol'
    have hinj := List.nodup_iff_injective_get.mp (stencilCols_nodup hv hp)
    have hfin : (⟨j', hj'⟩ : Fin _) = ⟨j, hi⟩ := hinj (by rw [hgK, hcol'])
    exact congrArg Fin.val hfin

/-- Witness for C2 at row 0 of the concrete 2×2×2 single-process geometry. -/
theorem C2_witness :
    ∃ grow cols vals diag,
      (generateProblem gW).localToGlobalMap[0]? = some grow ∧
      (generateProblem gW).mtxIndG[0]? = some cols ∧
      (generateProblem gW).matrixValues[0]? = some vals ∧
      (generateProblem gW).matrixDiagonal[0]? = some diag ∧
      (∀ j : ℕ, ∀ hj : j < cols.length,
        (cols.get ⟨j, hj⟩ = grow → vals[j]? = some 27) ∧
        (cols.get ⟨j, hj⟩ ≠ grow → vals[j]? = some ((-1 : ℚ)))) ∧
      (∃ j, ∃ hj : j < cols.length, cols.get ⟨j, hj⟩ = grow ∧ diag = some j ∧
        ∀ j' : ℕ, ∀ hj' : j' < cols.length, cols.get ⟨j', hj'⟩ = grow → j' = j) :=
  C2_diagonal_values gW (by decide) 0 (by decide)

lemma two_le_mul_of_three_le {a b : Int} (ha : 3 ≤ a) (hb : 3 ≤ b) : 2 ≤ a * b := by
  have h9 : (3:Int) * 3 ≤ a * b := mul_le_mul ha hb (by omega) (by omega)
  omega

/-- C4: for geometries with all six extents ≥ 3, every local row's nonzero
count lies in [8, 27], and every interior row has exactly 27 nonzeros. -/
theorem C4_nnz_bounds (g : Geometry) (hv : g.valid)
    (h3 : 3 ≤ g.nx ∧ 3 ≤ g.ny ∧ 3 ≤ g.nz ∧ 3 ≤ g.npx ∧ 3 ≤ g.npy ∧ 3 ≤ g.npz)
    (r : ℕ) (hr : r < (localPoints g).length) :
    ∃ c p, (generateProblem g).nonzerosInRow[r]? = some c ∧
      (localPoints g)[r]? = some p ∧
      8 ≤ c ∧ c ≤ 27 ∧ (interiorPoint g p → c = 27) := by
  have h2x : 2 ≤ g.gnx := two_le_mul_of_three_le h3.1 h3.2.2.2.1
  have h2y : 2 ≤ g.gny := two_le_mul_of_three_le h3.2.1 h3.2.2.2.2.1
  have h2z : 2 ≤ g.gnz := two_le_mul_of_three_le h3.2.2.1 h3.2.2.2.2.2
  have hp : (localPoints g).get ⟨r, hr⟩ ∈ localPoints g := List.get_mem _ r hr
  have hb := nnz_in_range hv hp h2x h2y h2z
  refine ⟨nnzInRow g ((localPoints g).get ⟨r, hr⟩), (localPoints g).get ⟨r, hr⟩,
    getElem?_gen_map _ hr, ?_, hb.1, hb.2, fun hint => nnz_interior hv hp hint⟩
  rw [List.getElem?_eq_getElem hr]
  simp [List.get_eq_getElem]

/-- Witness for C4 at the centre row 13 (an interior point) of the concrete
3×3×3 local grid on the centre process of a 3×3×3 process grid. -/
theorem C4_witness :
    ∃ c p, (generateProblem gW4).nonzerosInRow[13]? = some c ∧
      (localPoints gW4)[13]? = some p ∧
      8 ≤ c ∧ c ≤ 27 ∧ (interiorPoint gW4 p → c = 27) :=
  C4_nnz_bounds gW4 (by decide) (by decide) 13 (by decide)

/-- C7 counterexample: the all-ones geometry has positive (≥ 1) extent in
every axis, yet its single row stores exactly 1 nonzero, violating the
claimed lower bound of 8. -/
theorem C7_counterexample :
    Geometry.valid gOne ∧ 1 ≤ gOne.gnx ∧ 1 ≤ gOne.gny ∧ 1 ≤ gOne.gnz ∧
    (generateProblem gOne).nonzerosInRow[0]? = some 1 ∧
    ¬ ∀ c ∈ (generateProblem gOne).nonzerosInRow, 8 ≤ c := by decide

/-- C7 as amended: when every global extent is at least 2, every generated
row has nonzero count in [8, 27], and the diagonal slot is set for every
row. -/
theorem C7_amended (g : Geometry) (hv : g.valid)
    (h2 : 2 ≤ g.gnx ∧ 2 ≤ g.gny ∧ 2 ≤ g.gnz) (r : ℕ)
    (hr : r < (localPoints g).length) :
    ∃ c diag, (generateProblem g).nonzerosInRow[r]? = some c ∧
      (generateProblem g).matrixDiagonal[r]? = some diag ∧
      8 ≤ c ∧ c ≤ 27 ∧ ∃ j, diag = some j := by
  have hp : (localPoints g).get ⟨r, hr⟩ ∈ localPoints g := List.get_mem _ r hr
  have hb := nnz_in_range hv hp h2.1 h2.2.1 h2.2.2
  obtain ⟨j, i, hsome, hi, hgK, hji⟩ :=
    foldl_diag_spec none 0 (globalRow_mem_stencilCols hv hp)
  exact ⟨_, _, getElem?_gen_map _ hr, getElem?_gen_map _ hr, hb.1, hb.2, j, hsome⟩

/-- Witness for the amended C7 at row 0 of the concrete 2×2×2 single-process
geometry. -/
theorem C7_witness :
    ∃ c diag, (generateProblem gW).nonzerosInRow[0]? = some c ∧
      (generateProblem gW).matrixDiagonal[0]? = some diag ∧
      8 ≤ c ∧ c ≤ 27 ∧ ∃ j, diag = some j :=
  C7_amended gW (by decide) (by decide) 0 (by decide)

/-- C8 counterexample: on the corner process of a 3×3×3 process grid of
3×3×3 subdomains, the minimum nonzero count 8 is attained by exactly 1 local
row, not 8 as claimed. -/
theorem C8_counterexample :
    Geometry.valid gCorner ∧
    (3 ≤ gCorner.nx ∧ 3 ≤ gCorner.ny ∧ 3 ≤ gCorner.nz ∧ 3 ≤ gCorner.npx ∧
      3 ≤ gCorner.npy ∧ 3 ≤ gCorner.npz) ∧
    (gCorner.ipx = 0 ∨ gCorner.ipx = gCorner.npx - 1) ∧
    (gCorner.ipy = 0 ∨ gCorner.ipy = gCorner.npy - 1) ∧
    (gCorner.ipz = 0 ∨ gCorner.ipz = gCorner.npz - 1) ∧
    (∀ c ∈ (generateProblem gCorner).nonzerosInRow, 8 ≤ c) ∧
    (generateProblem gCorner).nonzerosInRow.countP (fun c => decide (c = 8)) = 1 ∧
    (generateProblem gCorner).nonzerosInRow.countP (fun c => decide (c = 8)) ≠ 8 := by
  decide

/-- Local coordinate in x of the unique corner row of a corner process. -/
def cornerIx (g : Geometry) : ℕ := if g.ipx = 0 then 0 else g.nx.toNat - 1

/-- Local coordinate in y of the unique corner row of a corner process. -/
def cornerIy (g : Geometry) : ℕ := if g.ipy = 0 then 0 else g.ny.toNat - 1

/-- Local coordinate in z of the unique corner row of a corner process. -/
def cornerIz (g : Geometry) : ℕ := if g.ipz = 0 then 0 else g.nz.toNat - 1

lemma corner_axis_two_iff {ip np n : Int} {i : ℕ} (h0 : 0 ≤ ip) (h1 : ip < np)
    (hn : 3 ≤ n) (hnp : 3 ≤ np) (hcorner : ip = 0 ∨ ip = np - 1)
    (hi : (i : Int) < n) :
    (axisCount (ip * n + (i : Int)) (n * np) = 2 ↔
      i = (if ip = 0 then 0 else n.toNat - 1)) ∧
    (axisCount (ip * n + (i : Int)) (n * np) = 2 ∨
      axisCount (ip * n + (i : Int)) (n * np) = 3) := by
  obtain ⟨hc0, hc1⟩ := axis_bound h0 h1 (by omega) hi
  have h9 : (3:Int) * 3 ≤ n * np := mul_le_mul hn hnp (by omega) (by omega)
  have hiff := axisCount_eq_two_iff hc0 hc1 (by omega)
  have e3 : n * 3 ≤ n * np := mul_le_mul_of_nonneg_left (by omega) (by omega)
  have e4 : (np - 1) * n = n * np - n := by ring
  constructor
  · rw [hiff]
    rcases hcorner with rfl | rfl
    · rw [if_pos rfl]
      omega
    · rw [if_neg (by omega)]
      omega
  · rw [axisCount_eq hc0 hc1]
    split_ifs <;> omega

lemma corner_count {g : Geometry} (hv : g.valid)
    (h3 : 3 ≤ g.nx ∧ 3 ≤ g.ny ∧ 3 ≤ g.nz ∧ 3 ≤ g.npx ∧ 3 ≤ g.npy ∧ 3 ≤ g.npz)
    (hc : (g.ipx = 0 ∨ g.ipx = g.npx - 1) ∧ (g.ipy = 0 ∨ g.ipy = g.npy - 1) ∧
      (g.ipz = 0 ∨ g.ipz = g.npz - 1)) {p : ℕ × ℕ × ℕ} (hp : p ∈ localPoints g) :
    nnzInRow g p = 8 ↔ p = (cornerIx g, cornerIy g, cornerIz g) := by
  obtain ⟨hvx, hvy, hvz, hvpx, hvpy, hvpz, hipx0, hipx1, hipy0, hipy1,
    hipz0, hipz1, -⟩ := hv
  obtain ⟨hpx, hpy, hpz⟩ := mem_localPoints.mp hp
  obtain ⟨px, py, pz⟩ := p
  simp only at hpx hpy hpz
  have hax := corner_axis_two_iff hipx0 hipx1 h3.1 h3.2.2.2.1 hc.1
    (show ((px:ℕ) : Int) < g.nx by omega)
  have hay := corner_axis_two_iff hipy0 hipy1 h3.2.1 h3.2.2.2.2.1 hc.2.1
    (show ((py:ℕ) : Int) < g.ny by omega)
  have haz := corner_axis_two_iff hipz0 hipz1 h3.2.2.1 h3.2.2.2.2.2 hc.2.2
    (show ((pz:ℕ) : Int) < g.nz by omega)
  rw [nnzInRow_eq]
  simp only [gixP, giyP, gizP, Geometry.gnx, Geometry.gny, Geometry.gnz,
    cornerIx, cornerIy, cornerIz, Prod.ext_iff]
  simp only at hax hay haz
  constructor
  · intro h8
    rcases hax.2 with ex | ex <;> rcases hay.2 with ey | ey <;>
      rcases haz.2 with ez | ez <;> rw [ex, ey, ez] at h8 <;> norm_num at h8
    exact ⟨hax.1.mp ex, hay.1.mp ey, haz.1.mp ez⟩
  · rintro ⟨h1, h2, h3'⟩
    rw [hax.1.mpr h1, hay.1.mpr h2, haz.1.mpr h3']

/-- C8 as amended: for geometries with all six extents ≥ 3 and the process at
a corner of the process grid, the minimum nonzero count 8 is attained by
exactly 1 local row (the local corner at the global domain corner); all rows
have count at least 8. -/
theorem C8_amended (g : Geometry) (hv : g.valid)
    (h3 : 3 ≤ g.nx ∧ 3 ≤ g.ny ∧ 3 ≤ g.nz ∧ 3 ≤ g.npx ∧ 3 ≤ g.npy ∧ 3 ≤ g.npz)
    (hc : (g.ipx = 0 ∨ g.ipx = g.npx - 1) ∧ (g.ipy = 0 ∨ g.ipy = g.npy - 1) ∧
      (g.ipz = 0 ∨ g.ipz = g.npz - 1)) :
    (generateProblem g).nonzerosInRow.countP (fun c => decide (c = 8)) = 1 ∧
    ∀ c ∈ (generateProblem g).nonzerosInRow, 8 ≤ c := by
  have h2x : 2 ≤ g.gnx := two_le_mul_of_three_le h3.1 h3.2.2.2.1
  have h2y : 2 ≤ g.gny := two_le_mul_of_three_le h3.2.1 h3.2.2.2.2.1
  have h2z : 2 ≤ g.gnz := two_le_mul_of_three_le h3.2.2.1 h3.2.2.2.2.2
  constructor
  · have hpc : (cornerIx g, cornerIy g, cornerIz g) ∈ localPoints g := by
      obtain ⟨hvx, hvy, hvz, -⟩ := hv
      rw [mem_localPoints]
      refine ⟨?_, ?_, ?_⟩
      · show cornerIx g < g.nx.toNat
        unfold cornerIx
        split_ifs <;> omega
      · show cornerIy g < g.ny.toNat
        unfold cornerIy
        split_ifs <;> omega
      · show cornerIz g < g.nz.toNat
        unfold cornerIz
        split_ifs <;> omega
    show ((localPoints g).map fun p => nnzInRow g p).countP
      (fun c => decide (c = 8)) = 1
    rw [List.countP_map]
    have hcongr : ∀ p ∈ localPoints g,
        (((fun c => decide (c = 8)) ∘ fun p => nnzInRow g p) p = true ↔
        (fun q => decide (q = (cornerIx g, cornerIy g, cornerIz g))) p = true) := by
      intro p hp
      simp only [Function.comp, decide_eq_true_eq]
      exact corner_count hv h3 hc hp
    rw [List.countP_congr hcongr]
    exact countP_eq_one_of_nodup_mem (nodup_localPoints g) hpc
  · intro c hcmem
    rcases List.mem_map.mp hcmem with ⟨p, hp, rfl⟩
    exact (nnz_in_range hv hp h2x h2y h2z).1

/-- Witness for the amended C8 at the concrete corner process of a 3×3×3
process grid of 3×3×3 subdomains. -/
theorem C8_witness :
    (generateProblem gCorner).nonzerosInRow.countP (fun c => decide (c = 8)) = 1 ∧
    ∀ c ∈ (generateProblem gCorner).nonzerosInRow, 8 ≤ c :=
  C8_amended gCorner (by decide) (by decide) (by decide)

end HPCG
